import Mathlib

/-!
Verification of `morpheus/_lib/include/morpheus/types.hpp` (Morpheus).

The header declares five type aliases inside `namespace morpheus`:

  using TensorIndex = cudf::size_type;
  using RankType    = int;
  using ShapeType   = std::vector<TensorIndex>;
  using RangeType   = std::pair<TensorIndex, TensorIndex>;
  using TensorMap   = std::map<std::string, TensorObject>;

We give a shallow embedding of these aliases and of the semantics of the
standard-library containers they name. `std::map` is modelled as an
association list kept strictly sorted by key (the ordered-tree semantics of
`std::map`: key-unique, iteration in key order, `insert` does not overwrite
an existing key, `erase` removes the key's entry). `std::vector` is
modelled as a list with `push_back`/`pop_back`. `std::pair` is a product.
-/

namespace morpheus

/-- Modelled from the spec: `cudf::size_type` is the external dataframe
library's element-count/index type; its definition is not part of this
repository. cudf declares `using size_type = int32_t;`, so we model it as
the signed 32-bit integers: integers in the interval [-2^31, 2^31 - 1]. -/
abbrev cudf.size_type : Type := { i : Int // -(2 ^ 31) ≤ i ∧ i < 2 ^ 31 }

/-- `using TensorIndex = cudf::size_type;` (types.hpp line 37). -/
abbrev TensorIndex : Type := cudf.size_type

/-- The underlying integer of a tensor index. -/
def TensorIndex.val (i : TensorIndex) : Int := Subtype.val i

/-- `using RankType = int;` (types.hpp line 38): the number of dimensions
of a tensor, a C `int`. -/
abbrev RankType : Type := Int

/-- `using ShapeType = std::vector<TensorIndex>;` (types.hpp line 40).
`std::vector` is an ordered resizable sequence; we model a vector value as
the list of its elements in order. -/
abbrev ShapeType : Type := List TensorIndex

/-- `std::vector` default construction: the empty vector. -/
def shapeEmpty : ShapeType := []

/-- `std::vector::push_back`: append one element at the end. -/
def shapePushBack (s : ShapeType) (x : TensorIndex) : ShapeType := s ++ [x]

/-- `std::vector::pop_back`: remove the last element. -/
def shapePopBack (s : ShapeType) : ShapeType := List.dropLast s

/-- `std::vector::size`. -/
def shapeSize (s : ShapeType) : Nat := List.length s

/-- Constructing a shape from a sequence of index values by successive
`push_back`, as a call site filling a `ShapeType` does. -/
def shapeFromValues (l : List TensorIndex) : ShapeType :=
  l.foldl (fun s x => shapePushBack s x) shapeEmpty

/-- Reading a shape back: iterating the vector yields its elements in
order. -/
def shapeToList (s : ShapeType) : List TensorIndex := s

/-- `using RangeType = std::pair<TensorIndex, TensorIndex>;`
(types.hpp line 41). -/
abbrev RangeType : Type := TensorIndex × TensorIndex

/-- `std::pair::first`. -/
def RangeType.first (r : RangeType) : TensorIndex := Prod.fst r

/-- `std::pair::second`. -/
def RangeType.second (r : RangeType) : TensorIndex := Prod.snd r

/-- `struct TensorObject;` — the header only forward-declares the tensor
object type; its definition lives elsewhere in the repository. Modelled
from the spec: a tensor-like object ("named collection of tensor-like
objects passed between pipeline stages"); we model it as an abstract token
so that distinct tensor objects can be distinguished, which is all the map
semantics depends on. -/
structure TensorObject where
  id : Nat
deriving DecidableEq

/-- `using TensorMap = std::map<std::string, TensorObject>;`
(types.hpp line 42). A `std::map` value is an ordered associative
container: we model it as its entry list in increasing key order
(`std::map` iteration order). Well-formedness (`sortedMap`) below captures
the strict key ordering every `std::map` value maintains. -/
abbrev TensorMap : Type := List (String × TensorObject)

/-- The invariant every `std::map` value maintains: entries strictly
increasing by key (hence keys pairwise distinct). -/
def sortedMap (m : TensorMap) : Prop :=
  List.Pairwise (fun p q : String × TensorObject => p.1 < q.1) m

instance (m : TensorMap) : Decidable (sortedMap m) :=
  List.instDecidablePairwise m

/-- `std::map` default construction: the empty map. -/
def mapEmpty : TensorMap := []

/-- Decidability of the `std::less<std::string>` key order through the
character sequences it compares (lexicographic order on the characters),
registered with high priority so that concrete map computations reduce. -/
instance (priority := 2000) strDecLT (a b : String) : Decidable (a < b) :=
  decidable_of_iff _ String.lt_iff_toList_lt.symm

/-- `std::map::insert({k, v})`: place the entry at its key-ordered
position; if an entry with the same key is already present the map is left
unchanged (`std::map::insert` does not overwrite). -/
def mapInsert (k : String) (v : TensorObject) : TensorMap → TensorMap
  | [] => [(k, v)]
  | (k', v') :: rest =>
    if k < k' then (k, v) :: (k', v') :: rest
    else if k' < k then (k', v') :: mapInsert k v rest
    else (k', v') :: rest

/-- `std::map::find(k)` (as a lookup returning the mapped value when the
key is present). -/
def mapFind (k : String) : TensorMap → Option TensorObject
  | [] => none
  | (k', v') :: rest => if k = k' then some v' else mapFind k rest

/-- `std::map::erase(k)`: remove the entry with key `k`, if any. -/
def mapErase (k : String) : TensorMap → TensorMap
  | [] => []
  | (k', v') :: rest => if k = k' then rest else (k', v') :: mapErase k rest

/-- Iterating a `std::map` from `begin()` to `end()` visits its entries in
increasing key order: for our model, the entry list itself. -/
def mapToList (m : TensorMap) : List (String × TensorObject) := m

/-- The keys of a map, in iteration order. -/
def mapKeys (m : TensorMap) : List String := m.map Prod.fst

/-- Building a map by inserting a list of entries one by one, in list
order, starting from the empty map. -/
def buildMap (l : List (String × TensorObject)) : TensorMap :=
  l.foldl (fun m p => mapInsert p.1 p.2 m) mapEmpty

/-- The tensor maps reachable from the empty map by any sequence of
`insert` and `erase` operations (`find` does not change the map). -/
inductive Reachable : TensorMap → Prop
  | empty : Reachable mapEmpty
  | insert (k : String) (v : TensorObject) {m : TensorMap} :
      Reachable m → Reachable (mapInsert k v m)
  | erase (k : String) {m : TensorMap} :
      Reachable m → Reachable (mapErase k m)

/-! ## Helper lemmas about the map model -/

theorem mem_mapInsert (k : String) (v : TensorObject) (m : TensorMap)
    (p : String × TensorObject) (hp : p ∈ mapInsert k v m) :
    p = (k, v) ∨ p ∈ m := by
  induction m with
  | nil =>
    simp only [mapInsert, List.mem_singleton] at hp
    exact Or.inl hp
  | cons q rest ih =>
    obtain ⟨k', v'⟩ := q
    by_cases hlt : k < k'
    · simp only [mapInsert, if_pos hlt, List.mem_cons] at hp
      rcases hp with rfl | h2 | h3
      · exact Or.inl rfl
      · exact Or.inr (List.mem_cons.mpr (Or.inl h2))
      · exact Or.inr (List.mem_cons.mpr (Or.inr h3))
    · by_cases hgt : k' < k
      · simp only [mapInsert, if_neg hlt, if_pos hgt, List.mem_cons] at hp
        rcases hp with rfl | hp2
        · exact Or.inr (List.mem_cons_self _ _)
        · rcases ih hp2 with h | h
          · exact Or.inl h
          · exact Or.inr (List.mem_cons_of_mem _ h)
      · simp only [mapInsert, if_neg hlt, if_neg hgt] at hp
        exact Or.inr hp

theorem sortedMap_mapInsert (k : String) (v : TensorObject) (m : TensorMap)
    (h : sortedMap m) : sortedMap (mapInsert k v m) := by
  induction m with
  | nil =>
    simp [mapInsert, sortedMap]
  | cons q rest ih =>
    obtain ⟨k', v'⟩ := q
    simp only [sortedMap, List.pairwise_cons] at h
    obtain ⟨h1, h2⟩ := h
    by_cases hlt : k < k'
    · simp only [mapInsert, if_pos hlt, sortedMap, List.pairwise_cons]
      refine ⟨?_, ?_, h2⟩
      · intro q hq
        rcases List.mem_cons.mp hq with rfl | hq2
        · exact hlt
        · exact lt_trans hlt (h1 q hq2)
      · exact h1
    · by_cases hgt : k' < k
      · simp only [mapInsert, if_neg hlt, if_pos hgt, sortedMap, List.pairwise_cons]
        refine ⟨?_, ih h2⟩
        intro q hq
        rcases mem_mapInsert k v rest q hq with rfl | hq2
        · exact hgt
        · exact h1 q hq2
      · simp only [mapInsert, if_neg hlt, if_neg hgt, sortedMap, List.pairwise_cons]
        exact ⟨h1, h2⟩

theorem mapErase_sublist (k : String) (m : TensorMap) :
    List.Sublist (mapErase k m) m := by
  induction m with
  | nil => simp [mapErase]
  | cons q rest ih =>
    obtain ⟨k', v'⟩ := q
    by_cases he : k = k'
    · simp only [mapErase, if_pos he]
      exact List.sublist_cons_self _ _
    · simp only [mapErase, if_neg he]
      exact List.Sublist.cons₂ _ ih

theorem sortedMap_mapErase (k : String) (m : TensorMap)
    (h : sortedMap m) : sortedMap (mapErase k m) := by
  simp only [sortedMap] at h ⊢
  exact List.Pairwise.sublist (mapErase_sublist k m) h

theorem reachable_sortedMap {m : TensorMap} (h : Reachable m) : sortedMap m := by
  induction h with
  | empty => simp [sortedMap, mapEmpty]
  | insert k v hm ih => exact sortedMap_mapInsert k v _ ih
  | erase k hm ih => exact sortedMap_mapErase k _ ih

theorem sortedMap_keys_nodup {m : TensorMap} (h : sortedMap m) :
    (mapKeys m).Nodup := by
  simp only [sortedMap] at h
  have hp : List.Pairwise (fun a b : String => a < b) (mapKeys m) :=
    List.Pairwise.map Prod.fst (fun a b hab => hab) h
  exact hp.imp (fun hab => ne_of_lt hab)

theorem mapInsert_perm (k : String) (v : TensorObject) (m : TensorMap)
    (hk : k ∉ mapKeys m) : List.Perm (mapInsert k v m) ((k, v) :: m) := by
  induction m with
  | nil => simp [mapInsert]
  | cons q rest ih =>
    obtain ⟨k', v'⟩ := q
    simp only [mapKeys, List.map_cons, List.mem_cons] at hk
    push_neg at hk
    obtain ⟨hne, hk2⟩ := hk
    by_cases hlt : k < k'
    · simp only [mapInsert, if_pos hlt]
      exact List.Perm.refl _
    · by_cases hgt : k' < k
      · simp only [mapInsert, if_neg hlt, if_pos hgt]
        exact ((ih hk2).cons (k', v')).trans (List.Perm.swap _ _ _)
      · exact absurd (le_antisymm (le_of_not_lt hgt) (le_of_not_lt hlt)) hne

theorem mapFind_mapInsert_self (k : String) (v : TensorObject) (m : TensorMap)
    (hk : k ∉ mapKeys m) : mapFind k (mapInsert k v m) = some v := by
  induction m with
  | nil => simp [mapInsert, mapFind]
  | cons q rest ih =>
    obtain ⟨k', v'⟩ := q
    simp only [mapKeys, List.map_cons, List.mem_cons] at hk
    push_neg at hk
    obtain ⟨hne, hk2⟩ := hk
    by_cases hlt : k < k'
    · simp only [mapInsert, if_pos hlt]
      simp [mapFind]
    · by_cases hgt : k' < k
      · simp only [mapInsert, if_neg hlt, if_pos hgt, mapFind, if_neg hne]
        exact ih hk2
      · exact absurd (le_antisymm (le_of_not_lt hgt) (le_of_not_lt hlt)) hne

theorem mapFind_some_mem (k : String) (v : TensorObject) (m : TensorMap)
    (h : mapFind k m = some v) : k ∈ mapKeys m := by
  induction m with
  | nil => simp [mapFind] at h
  | cons q rest ih =>
    obtain ⟨k', v'⟩ := q
    by_cases he : k = k'
    · simp [mapKeys, he]
    · simp only [mapFind, if_neg he] at h
      simp only [mapKeys, List.map_cons, List.mem_cons]
      exact Or.inr (ih h)

theorem mapInsert_mem_eq (k : String) (v : TensorObject) (m : TensorMap)
    (hs : sortedMap m) (hk : k ∈ mapKeys m) : mapInsert k v m = m := by
  induction m with
  | nil => simp [mapKeys] at hk
  | cons q rest ih =>
    obtain ⟨k', v'⟩ := q
    simp only [sortedMap, List.pairwise_cons] at hs
    obtain ⟨h1, h2⟩ := hs
    simp only [mapKeys, List.map_cons, List.mem_cons] at hk
    by_cases he : k = k'
    · subst he
      simp [mapInsert, lt_irrefl]
    · have hkrest : k ∈ mapKeys rest := hk.resolve_left he
      have hk2 : k' < k := by
        obtain ⟨p, hp, hpk⟩ := List.mem_map.mp hkrest
        exact hpk ▸ h1 p hp
      have hnlt : ¬ k < k' := fun hc => absurd (lt_trans hc hk2) (lt_irrefl k)
      simp only [mapInsert, if_neg hnlt, if_pos hk2]
      rw [ih (by simpa [sortedMap] using h2) hkrest]

theorem foldl_mapInsert_perm (l : List (String × TensorObject)) :
    ∀ m : TensorMap, (l.map Prod.fst).Nodup →
      (∀ k, k ∈ l.map Prod.fst → k ∉ mapKeys m) →
      List.Perm (l.foldl (fun m p => mapInsert p.1 p.2 m) m) (l ++ m) := by
  induction l with
  | nil =>
    intro m _ _
    simp
  | cons p l ih =>
    intro m hnd hdis
    simp only [List.map_cons, List.nodup_cons] at hnd
    obtain ⟨hp, hnd2⟩ := hnd
    have hpm : p.1 ∉ mapKeys m := hdis p.1 (by simp)
    have hdis2 : ∀ k, k ∈ l.map Prod.fst → k ∉ mapKeys (mapInsert p.1 p.2 m) := by
      intro k hk hmem
      have hperm := (mapInsert_perm p.1 p.2 m hpm).map Prod.fst
      simp only [mapKeys] at hmem
      have hkc : k ∈ p.1 :: List.map Prod.fst m := hperm.mem_iff.mp hmem
      rcases List.mem_cons.mp hkc with rfl | hkm
      · exact hp hk
      · exact hdis k (List.mem_cons_of_mem _ hk) hkm
    have h1 := ih (mapInsert p.1 p.2 m) hnd2 hdis2
    have h2 : List.Perm (l ++ mapInsert p.1 p.2 m) (l ++ ((p.1, p.2) :: m)) :=
      List.Perm.append_left l (mapInsert_perm p.1 p.2 m hpm)
    have h3 : List.Perm (l ++ ((p.1, p.2) :: m)) ((p.1, p.2) :: (l ++ m)) :=
      List.perm_middle
    exact (h1.trans (h2.trans h3))

theorem buildMap_perm (l : List (String × TensorObject))
    (hnd : (l.map Prod.fst).Nodup) : List.Perm (buildMap l) l := by
  have h := foldl_mapInsert_perm l mapEmpty hnd
    (by intro k _; simp [mapKeys, mapEmpty])
  simpa [buildMap, mapEmpty] using h

theorem sortedMap_foldl (l : List (String × TensorObject)) :
    ∀ m : TensorMap, sortedMap m →
      sortedMap (l.foldl (fun m p => mapInsert p.1 p.2 m) m) := by
  induction l with
  | nil => intro m h; exact h
  | cons p l ih => intro m h; exact ih _ (sortedMap_mapInsert p.1 p.2 m h)

theorem sortedMap_buildMap (l : List (String × TensorObject)) :
    sortedMap (buildMap l) :=
  sortedMap_foldl l mapEmpty (by simp [sortedMap, mapEmpty])

instance : IsAntisymm (String × TensorObject) (fun p q => p.1 < q.1) :=
  ⟨fun _ _ h1 h2 => absurd h2 (lt_asymm h1)⟩

theorem buildMap_eq_of_perm (l1 l2 : List (String × TensorObject))
    (hperm : List.Perm l1 l2) (hnd : (l1.map Prod.fst).Nodup) :
    buildMap l1 = buildMap l2 := by
  have hnd2 : (l2.map Prod.fst).Nodup := (hperm.map Prod.fst).nodup_iff.mp hnd
  have h1 := buildMap_perm l1 hnd
  have h2 := buildMap_perm l2 hnd2
  have hp : List.Perm (buildMap l1) (buildMap l2) :=
    h1.trans (hperm.trans h2.symm)
  have hs1 : List.Sorted (fun p q : String × TensorObject => p.1 < q.1) (buildMap l1) :=
    sortedMap_buildMap l1
  have hs2 : List.Sorted (fun p q : String × TensorObject => p.1 < q.1) (buildMap l2) :=
    sortedMap_buildMap l2
  exact List.eq_of_perm_of_sorted hp hs1 hs2

/-! ## Claim theorems -/

/-- C1: the tensor-map type is a key-unique mapping from string names to
tensor-objects supporting insertion, lookup by key, and iteration: for
every tensor map `m`, key `k` not present in `m`, and tensor-object `v`,
inserting `(k, v)` into `m` and then looking up `k` yields `v`, and
iterating the updated map visits exactly the entries of the map (the new
entry together with exactly the old ones). -/
theorem tensorMap_insert_find_iteration (m : TensorMap) (k : String)
    (v : TensorObject) (hk : k ∉ mapKeys m) :
    mapFind k (mapInsert k v m) = some v ∧
      List.Perm (mapToList (mapInsert k v m)) ((k, v) :: mapToList m) :=
  ⟨mapFind_mapInsert_self k v m hk, mapInsert_perm k v m hk⟩

/-- Witness for C1 at a concrete input. -/
theorem tensorMap_insert_find_iteration_witness :
    "b" ∉ mapKeys [("a", TensorObject.mk 0)] ∧
      (mapFind "b" (mapInsert "b" (TensorObject.mk 1) [("a", TensorObject.mk 0)]) =
          some (TensorObject.mk 1) ∧
        List.Perm
          (mapToList (mapInsert "b" (TensorObject.mk 1) [("a", TensorObject.mk 0)]))
          (("b", TensorObject.mk 1) :: mapToList [("a", TensorObject.mk 0)])) :=
  ⟨by decide,
   tensorMap_insert_find_iteration [("a", TensorObject.mk 0)] "b"
     (TensorObject.mk 1) (by decide)⟩

/-- C2: key uniqueness is an invariant of the tensor map: every tensor map
reachable from the empty map by any sequence of insert, erase and lookup
operations has pairwise-distinct keys, so each name is associated with at
most one tensor-object. -/
theorem tensorMap_keys_unique_invariant (m : TensorMap) (h : Reachable m) :
    (mapKeys m).Nodup :=
  sortedMap_keys_nodup (reachable_sortedMap h)

/-- Witness for C2 at a concrete reachable map. -/
theorem tensorMap_keys_unique_invariant_witness :
    Reachable (mapInsert "a" (TensorObject.mk 0)
        (mapInsert "b" (TensorObject.mk 1) mapEmpty)) ∧
      (mapKeys (mapInsert "a" (TensorObject.mk 0)
        (mapInsert "b" (TensorObject.mk 1) mapEmpty))).Nodup :=
  ⟨Reachable.insert _ _ (Reachable.insert _ _ Reachable.empty),
   tensorMap_keys_unique_invariant _
     (Reachable.insert _ _ (Reachable.insert _ _ Reachable.empty))⟩

/-- C3 counterexample: the claim that none of the three conditions is
enforced by the aliased types fails on its tensor-map conjunct. Inserting
twice under the same key `"a"` from the empty map leaves a single-entry
map keeping the first value: the map type coalesces the duplicate itself,
so key uniqueness IS enforced by the tensor-map type, not left to call
sites. -/
theorem aliasValidation_counterexample :
    mapInsert "a" (TensorObject.mk 1)
        (mapInsert "a" (TensorObject.mk 0) mapEmpty) =
      [("a", TensorObject.mk 0)] ∧
    (mapKeys (mapInsert "a" (TensorObject.mk 1)
        (mapInsert "a" (TensorObject.mk 0) mapEmpty))).Nodup := by
  decide

/-- C3 (amended): shape non-negativity and range ordering are not enforced
by the shape and range types (some shape value has a negative entry, and
some range value's first element exceeds its second), but map-key
uniqueness is enforced by the tensor-map type itself: every reachable
tensor map has pairwise-distinct keys. -/
theorem aliasValidation_amended :
    (∃ s : ShapeType, ∃ x ∈ shapeToList s, TensorIndex.val x < 0) ∧
    (∃ r : RangeType,
      TensorIndex.val (RangeType.second r) < TensorIndex.val (RangeType.first r)) ∧
    (∀ m : TensorMap, Reachable m → (mapKeys m).Nodup) := by
  refine ⟨⟨[⟨-3, by decide⟩], ⟨-3, by decide⟩, ?_, by decide⟩,
    ⟨(⟨7, by decide⟩, ⟨2, by decide⟩), by decide⟩, ?_⟩
  · simp [shapeToList]
  · intro m h
    exact sortedMap_keys_nodup (reachable_sortedMap h)

/-- Witness for the reachability conjunct of the amended C3. -/
theorem aliasValidation_amended_witness :
    Reachable (mapInsert "x" (TensorObject.mk 2) mapEmpty) ∧
      (mapKeys (mapInsert "x" (TensorObject.mk 2) mapEmpty)).Nodup :=
  ⟨Reachable.insert _ _ Reachable.empty,
   aliasValidation_amended.2.2 _ (Reachable.insert _ _ Reachable.empty)⟩

/-- C4 counterexample: two insertion sequences over the same multiset of
(key, value) pairs that disagree after iteration. The pairs share the key
`"a"` with different values; `std::map::insert` keeps the first value, so
the two insertion orders build different maps. -/
theorem tensorMap_iteration_order_counterexample :
    List.Perm [("a", TensorObject.mk 0), ("a", TensorObject.mk 1)]
      [("a", TensorObject.mk 1), ("a", TensorObject.mk 0)] ∧
    mapToList (buildMap [("a", TensorObject.mk 0), ("a", TensorObject.mk 1)]) ≠
      mapToList (buildMap [("a", TensorObject.mk 1), ("a", TensorObject.mk 0)]) := by
  decide

/-- C4 (amended): for every two tensor maps built by inserting the same
set of (key, value) pairs with pairwise-distinct keys in any two orders,
iteration yields the same sequence of entries. -/
theorem tensorMap_iteration_order_amended (l1 l2 : List (String × TensorObject))
    (hperm : List.Perm l1 l2) (hnd : (l1.map Prod.fst).Nodup) :
    mapToList (buildMap l1) = mapToList (buildMap l2) :=
  congrArg mapToList (buildMap_eq_of_perm l1 l2 hperm hnd)

/-- Witness for the amended C4 at two concrete insertion orders. -/
theorem tensorMap_iteration_order_amended_witness :
    List.Perm [("b", TensorObject.mk 1), ("a", TensorObject.mk 0)]
      [("a", TensorObject.mk 0), ("b", TensorObject.mk 1)] ∧
    (([("b", TensorObject.mk 1), ("a", TensorObject.mk 0)]).map Prod.fst).Nodup ∧
    mapToList (buildMap [("b", TensorObject.mk 1), ("a", TensorObject.mk 0)]) =
      mapToList (buildMap [("a", TensorObject.mk 0), ("b", TensorObject.mk 1)]) :=
  ⟨by decide, by decide,
   tensorMap_iteration_order_amended _ _ (by decide) (by decide)⟩

/-- C5: the index-type alias resolves to the external dataframe library's
element-count type (they are the same type), and that type is a signed
integer: it contains negative values. -/
theorem tensorIndex_matches_dataframe_index :
    TensorIndex = cudf.size_type ∧
      ∃ x : TensorIndex, TensorIndex.val x < 0 :=
  ⟨rfl, ⟨⟨-1, by decide⟩, by decide⟩⟩

/-- C6: the range-type alias is exactly the ordered pair of two tensor
indices: it equals the product type, and every range value is determined
by its `first` and `second` components alone. -/
theorem rangeType_is_index_pair :
    RangeType = (TensorIndex × TensorIndex) ∧
      ∀ r : RangeType, r = (RangeType.first r, RangeType.second r) :=
  ⟨rfl, fun _ => rfl⟩

/-- C7: shape construction round-trips: building a shape from a list of
index values by successive push_back and reading it back yields the same
values in the same order, and the shape's size is the number of values. -/
theorem shape_roundtrip (l : List TensorIndex) :
    shapeToList (shapeFromValues l) = l ∧
      shapeSize (shapeFromValues l) = l.length := by
  have h : ∀ (l : List TensorIndex) (s : ShapeType),
      l.foldl (fun s x => shapePushBack s x) s = s ++ l := by
    intro l
    induction l with
    | nil => intro s; simp
    | cons x l ih =>
      intro s
      rw [List.foldl_cons, ih]
      simp [shapePushBack]
  constructor
  · simp [shapeToList, shapeFromValues, shapeEmpty, h]
  · simp [shapeSize, shapeFromValues, shapeEmpty, h]

/-- C8: the shape-type alias is an ordered, resizable sequence of tensor
indices: it equals the list type over the index type, push_back grows the
length by one and appends at the end preserving the existing entries in
order, and pop_back undoes a push_back. -/
theorem shapeType_resizable_sequence :
    (ShapeType = List TensorIndex) ∧
    (∀ (s : ShapeType) (x : TensorIndex),
      shapeSize (shapePushBack s x) = shapeSize s + 1 ∧
      shapePopBack (shapePushBack s x) = s ∧
      shapeToList (shapePushBack s x) = shapeToList s ++ [x] ∧
      (shapeToList (shapePushBack s x)).take (shapeSize s) = shapeToList s) := by
  refine ⟨rfl, fun s x => ⟨?_, ?_, rfl, ?_⟩⟩
  · simp [shapeSize, shapePushBack]
  · simp [shapePopBack, shapePushBack]
  · simp [shapeToList, shapePushBack, shapeSize, List.take_left]

/-- C9: the tensor index type is a 32-bit signed integer: every value lies
in the interval [-2^31, 2^31 - 1], and both interval endpoints are
realized, so no single dimension can be indexed beyond 2^31 - 1 through
these types. -/
theorem tensorIndex_is_int32 :
    (∀ x : TensorIndex,
      -(2 ^ 31) ≤ TensorIndex.val x ∧ TensorIndex.val x ≤ 2 ^ 31 - 1) ∧
    (∃ x : TensorIndex, TensorIndex.val x = -(2 ^ 31)) ∧
    (∃ x : TensorIndex, TensorIndex.val x = 2 ^ 31 - 1) := by
  refine ⟨fun x => ?_, ⟨⟨-(2 ^ 31), by decide⟩, rfl⟩,
    ⟨⟨2 ^ 31 - 1, by decide⟩, rfl⟩⟩
  obtain ⟨i, hi1, hi2⟩ := x
  simp only [TensorIndex.val]
  omega

/-- C10: inserting into the tensor map under an already-present key leaves
the map entirely unchanged: when `k` maps to `v0` in `m`, inserting
`(k, v)` keeps the association `k -> v0` and every other entry of `m`
(`std::map::insert` does not overwrite). -/
theorem tensorMap_insert_existing_key_noop (m : TensorMap) (k : String)
    (v0 v : TensorObject) (hs : sortedMap m) (h0 : mapFind k m = some v0) :
    mapInsert k v m = m ∧ mapFind k (mapInsert k v m) = some v0 := by
  have hmem : k ∈ mapKeys m := mapFind_some_mem k v0 m h0
  have heq := mapInsert_mem_eq k v m hs hmem
  exact ⟨heq, by rw [heq, h0]⟩

/-- Witness for C10 at a concrete map. -/
theorem tensorMap_insert_existing_key_noop_witness :
    sortedMap [("a", TensorObject.mk 0)] ∧
    mapFind "a" [("a", TensorObject.mk 0)] = some (TensorObject.mk 0) ∧
    (mapInsert "a" (TensorObject.mk 5) [("a", TensorObject.mk 0)] =
        [("a", TensorObject.mk 0)] ∧
      mapFind "a" (mapInsert "a" (TensorObject.mk 5) [("a", TensorObject.mk 0)]) =
        some (TensorObject.mk 0)) :=
  ⟨by decide, by decide,
   tensorMap_insert_existing_key_noop [("a", TensorObject.mk 0)] "a"
     (TensorObject.mk 0) (TensorObject.mk 5) (by decide) (by decide)⟩

end morpheus
